import Mathlib

/-!
Verification development for the autotyper typing engine
(`src/helper/typing.py`, class `CharacterTyper`).

The engine is embedded shallowly:

* Randomness is an explicit tape `tape : ℕ → ℚ` of unit-interval draws,
  consumed left to right by an explicit position counter, one draw per call
  to `random.random()`, `random.uniform(a, b)`, `random.randint(1, n)` or
  `random.choice([-2, -1, 1, 2])`.
* The observable behaviour of a run is a trace of events: individual
  character injections (`_send_input`) and sleeps (`time.sleep`), with the
  slept duration recorded as an exact rational.
* The cancellation flag (`threading.Event`) is modelled as a schedule
  `stop : ℕ → Bool` read at each loop check, indexed by the number of
  events the task has emitted so far; a flag that is set once and never
  cleared is a monotone schedule.
* `str.isalpha` is modelled by `Char.isAlpha` (ASCII letters), `chr`/`ord`
  by `Char.ofNat`/`Char.toNat`, floats by `ℚ`.
-/

/-- Typing behavior modes (`class TypingMode(Enum)`). -/
inductive TypingMode where
  | INSTANT
  | HUMAN_LIKE
  | MACHINE_GUN
deriving DecidableEq, Repr

/-- One observable effect of the engine: a character injected through the
platform backend, or a `time.sleep` of an exact rational duration. -/
inductive Event where
  | inject (c : Char)
  | sleep (d : ℚ)
deriving DecidableEq, Repr

/-- The mutable configuration fields of a `CharacterTyper` instance:
`_typing_delay = (delayMin, delayMax)`, `_error_rate` and `_mode`. -/
structure TyperConfig where
  delayMin : ℚ
  delayMax : ℚ
  errorRate : ℚ
  mode : TypingMode
deriving DecidableEq, Repr

/-- The field values set by `CharacterTyper.__init__`. -/
def initialConfig : TyperConfig :=
  ⟨1/20, 1/5, 1/200, TypingMode.HUMAN_LIKE⟩

/-- `CharacterTyper.set_typing_speed(min_delay, max_delay)`:
stores the pair as `_typing_delay`, with no validation. -/
def set_typing_speed (cfg : TyperConfig) (min_delay max_delay : ℚ) : TyperConfig :=
  { cfg with delayMin := min_delay, delayMax := max_delay }

/-- `CharacterTyper.set_error_rate(error_rate)`:
stores `max(0, min(1, error_rate))`. -/
def set_error_rate (cfg : TyperConfig) (error_rate : ℚ) : TyperConfig :=
  { cfg with errorRate := max 0 (min 1 error_rate) }

/-- `CharacterTyper.set_typing_mode(mode)`. -/
def set_typing_mode (cfg : TyperConfig) (m : TypingMode) : TyperConfig :=
  { cfg with mode := m }

/-- `random.uniform(a, b) = a + u * (b - a)` for a unit draw `u`. -/
def uniformDraw (a b u : ℚ) : ℚ := a + u * (b - a)

/-- `random.randint(1, n)` realised from a unit draw `u` as `1 + ⌊u * n⌋`:
for `u ∈ [0, 1)` this is uniform over `1 .. n`. -/
def randint1 (n : ℕ) (u : ℚ) : ℕ := 1 + (⌊u * (n : ℚ)⌋).toNat

/-- `random.choice([-2, -1, 1, 2])` realised from a unit draw `u`. -/
def choiceOffset (u : ℚ) : Int :=
  List.getD [(-2 : Int), -1, 1, 2] (⌊u * 4⌋).toNat 0

/-- A randomness tape whose draws all lie in the unit interval `[0, 1)`,
as the draws of Python's `random` module do. -/
def ValidTape (tape : ℕ → ℚ) : Prop := ∀ k, 0 ≤ tape k ∧ tape k < 1

/-- A cancellation-flag schedule that, once set, stays set (the engine's
`_stop_event` is set at most once per task and never cleared mid-task). -/
def StopMono (stop : ℕ → Bool) : Prop :=
  ∀ m k, m ≤ k → stop m = true → stop k = true

/-- The `typo_chars` list built by `_simulate_typo`: each alphabetic window
character is replaced by `chr(ord(c) + random.choice([-2, -1, 1, 2]))`
(one draw per alphabetic character), non-alphabetic characters are copied
unchanged.  Returns the list together with the advanced tape position. -/
def mkTypoChars (tape : ℕ → ℚ) : List Char → ℕ → List Char × ℕ
  | [], p => ([], p)
  | c :: cs, p =>
    if c.isAlpha then
      let tc := Char.ofNat ((c.toNat : Int) + choiceOffset (tape p)).toNat
      let r := mkTypoChars tape cs (p + 1)
      (tc :: r.1, r.2)
    else
      let r := mkTypoChars tape cs p
      (c :: r.1, r.2)

/-- A loop of the form
`for c in cs: self._send_input(c); time.sleep(random.uniform(a, b))`,
as used three times inside `_simulate_typo`. -/
def injectWithDelays (tape : ℕ → ℚ) (a b : ℚ) : List Char → ℕ → List Event × ℕ
  | [], p => ([], p)
  | c :: cs, p =>
    let r := injectWithDelays tape a b cs (p + 1)
    (Event.inject c :: Event.sleep (uniformDraw a b (tape p)) :: r.1, r.2)

/-- Result of `_simulate_typo`: its emitted events, its return value
`typo_length`, and the advanced tape position. -/
structure TypoResult where
  events : List Event
  typo_length : ℕ
  pos : ℕ
deriving DecidableEq, Repr

/-- `CharacterTyper._simulate_typo(text, i)`, modelled on the suffix
`rem = text[i:]` (the Python body only reads `text[i + j]` and
`len(text) - i`).  Draws `typo_length`, builds `typo_chars`, injects them
with `_typing_delay` sleeps, pauses `uniform(0.1, 0.3)`, injects one
backspace (code point 8) per typo character each followed by a
`uniform(0.05, 0.15)` sleep, then re-injects the original window with
`_typing_delay` sleeps, and returns `typo_length`. -/
def simulate_typo (cfg : TyperConfig) (tape : ℕ → ℚ) (rem : List Char) (p : ℕ) :
    TypoResult :=
  let L := randint1 (min 3 rem.length) (tape p)
  let w := rem.take L
  let tc := mkTypoChars tape w (p + 1)
  let e1 := injectWithDelays tape cfg.delayMin cfg.delayMax tc.1 tc.2
  let pause := uniformDraw (1/10) (3/10) (tape e1.2)
  let e2 := injectWithDelays tape (1/20) (3/20)
    (List.replicate tc.1.length (Char.ofNat 8)) (e1.2 + 1)
  let e3 := injectWithDelays tape cfg.delayMin cfg.delayMax w e2.2
  ⟨e1.1 ++ Event.sleep pause :: (e2.1 ++ e3.1), L, e3.2⟩

/-- The `while i < len(text)` loop of `CharacterTyper._simulate_typing`,
made structural on a fuel argument (each iteration consumes at least one
source character, so fuel `text.length` suffices; see `simulate_typing`).
Arguments after the fuel: remaining text `text[i:]`, `last_char`, the tape
position, and the number of events emitted so far (the index at which the
stop-flag schedule is read).  Returns the emitted events and the number of
typo detours taken. -/
def simulate_typing_loop (cfg : TyperConfig) (tape : ℕ → ℚ) (stop : ℕ → Bool) :
    ℕ → List Char → Option Char → ℕ → ℕ → List Event × ℕ
  | 0, _, _, _, _ => ([], 0)
  | _ + 1, [], _, _, _ => ([], 0)
  | fuel + 1, c :: rest, last_char, p, n =>
    if stop n then ([], 0)
    else if tape p < cfg.errorRate ∧ c.isAlpha = true then
      let r := simulate_typo cfg tape (c :: rest) (p + 1)
      let k := simulate_typing_loop cfg tape stop fuel
        ((c :: rest).drop r.typo_length) last_char r.pos (n + r.events.length)
      (r.events ++ k.1, k.2 + 1)
    else
      match cfg.mode with
      | TypingMode.INSTANT =>
        let k := simulate_typing_loop cfg tape stop fuel rest (some c) (p + 1) (n + 1)
        (Event.inject c :: k.1, k.2)
      | TypingMode.HUMAN_LIKE =>
        let d0 := uniformDraw cfg.delayMin cfg.delayMax (tape (p + 1))
        let d1 := if c ∈ ([',', ';', ':'] : List Char) then d0 * (3/2)
                  else if c ∈ (['.', '!', '?'] : List Char) then d0 * 2
                  else d0
        let d2 := if some c = last_char then d1 * (4/5) else d1
        let k := simulate_typing_loop cfg tape stop fuel rest (some c) (p + 2) (n + 2)
        (Event.inject c :: Event.sleep d2 :: k.1, k.2)
      | TypingMode.MACHINE_GUN =>
        let k := simulate_typing_loop cfg tape stop fuel rest (some c) (p + 1) (n + 2)
        (Event.inject c :: Event.sleep cfg.delayMin :: k.1, k.2)

/-- `CharacterTyper._simulate_typing(text)`: the typing loop started with
`last_char = None` and enough fuel for the whole text. -/
def simulate_typing (cfg : TyperConfig) (tape : ℕ → ℚ) (stop : ℕ → Bool)
    (text : List Char) (p n : ℕ) : List Event × ℕ :=
  simulate_typing_loop cfg tape stop text.length text none p n

/-- Net committed text of an injection trace: each injected character is
appended, except that code point 8 (backspace) erases the last committed
character. -/
def committed : List Char → List Event → List Char
  | acc, [] => acc
  | acc, Event.inject c :: evs =>
    if c = Char.ofNat 8 then committed acc.dropLast evs
    else committed (acc ++ [c]) evs
  | acc, Event.sleep _ :: evs => committed acc evs

/-- The injected characters of a trace, in order. -/
def injectsOf : List Event → List Char
  | [] => []
  | Event.inject c :: evs => c :: injectsOf evs
  | Event.sleep _ :: evs => injectsOf evs

/-- Number of characters a trace injects at positions where the stop-flag
schedule is already set, when the trace starts at event index `n`. -/
def badInjects (stop : ℕ → Bool) : List Event → ℕ → ℕ
  | [], _ => 0
  | Event.inject _ :: evs, n => (if stop n then 1 else 0) + badInjects stop evs (n + 1)
  | Event.sleep _ :: evs, n => badInjects stop evs (n + 1)

/-- Holds when every injection in the trace is immediately followed by a
sleep. -/
def noBareInject : List Event → Bool
  | [] => true
  | Event.inject _ :: Event.sleep _ :: evs => noBareInject evs
  | Event.sleep _ :: evs => noBareInject evs
  | _ => false

/-- The typo-substitution relation of `_simulate_typo`: an alphabetic
source character becomes the character whose code point is offset by a
value from `{-2, -1, 1, 2}`; any other character is copied unchanged. -/
def typoSubst (c tc : Char) : Prop :=
  if c.isAlpha then
    ∃ off : Int, off ∈ ([-2, -1, 1, 2] : List Int) ∧
      (tc.toNat : Int) = (c.toNat : Int) + off
  else tc = c

/-- All sleep durations of a trace lie in `[a, b]`. -/
def sleepsWithin (a b : ℚ) (evs : List Event) : Prop :=
  ∀ d : ℚ, Event.sleep d ∈ evs → a ≤ d ∧ d ≤ b

/-- One `KEYBDINPUT` payload of `_windows_send_input`:
virtual-key code, scan code and flags (`0x4` = unicode, `0x2` = key-up). -/
structure WinKeyInput where
  wVk : ℕ
  wScan : ℕ
  dwFlags : ℕ
deriving DecidableEq, Repr

/-- `CharacterTyper._windows_send_input(char)`: a newline is sent as the
Enter virtual key `0x0D` with no unicode flag; any other character as a
unicode event carrying its code point.  The down event is followed by the
same event with the key-up flag or-ed in. -/
def windows_send_input (c : Char) : List WinKeyInput :=
  let down : WinKeyInput :=
    if c = '\n' then ⟨0x0D, 0, 0⟩ else ⟨0, c.toNat, 0x4⟩
  [down, { down with dwFlags := down.dwFlags ||| 0x2 }]

/-- A synthetic X11 key event sent to the focused window. -/
inductive X11Event where
  | keyPress (keycode : ℕ)
  | keyRelease (keycode : ℕ)
deriving DecidableEq, Repr

/-- Keysym resolution of `_x11_send_input`: newline is hard-mapped to the
Return keysym `0xFF0D`; otherwise the display's keysym lookup is used,
falling back to the raw code point when the lookup yields 0. -/
def x11_keysym (keysymLookup : Char → ℕ) (c : Char) : ℕ :=
  if c = '\n' then 0xFF0D
  else if keysymLookup c = 0 then c.toNat else keysymLookup c

/-- `CharacterTyper._x11_send_input(char)`: one key-press then one
key-release event, both carrying `keysym_to_keycode` of the resolved
keysym.  The display's lookup tables are abstract parameters. -/
def x11_send_input (keysymLookup : Char → ℕ) (keysymToKeycode : ℕ → ℕ)
    (c : Char) : List X11Event :=
  [X11Event.keyPress (keysymToKeycode (x11_keysym keysymLookup c)),
   X11Event.keyRelease (keysymToKeycode (x11_keysym keysymLookup c))]

/-- `CharacterTyper.press_enter()` on the Windows backend: sends a newline
through `_send_input`, reading none of the configuration fields. -/
def press_enter_windows (cfg : TyperConfig) : List WinKeyInput :=
  windows_send_input '\n'

/-- `CharacterTyper.press_enter()` on the X11 backend. -/
def press_enter_x11 (cfg : TyperConfig) (keysymLookup : Char → ℕ)
    (keysymToKeycode : ℕ → ℕ) : List X11Event :=
  x11_send_input keysymLookup keysymToKeycode '\n'

/-- Engine-level state for the task lifecycle: the events already emitted
by finished or running tasks, the events the in-flight task has yet to
emit, and the cancellation flag.  The background thread is modelled by an
explicit scheduler step (`engineStep`); `Thread.join` runs the in-flight
task to completion (drains `pending`). -/
structure EngineState where
  emitted : List Event
  pending : List Event
  stopFlag : Bool
deriving DecidableEq, Repr

/-- One scheduler step of the background thread: emit the next pending
event, if any. -/
def engineStep (s : EngineState) : EngineState :=
  match s.pending with
  | [] => s
  | e :: rest => ⟨s.emitted ++ [e], rest, s.stopFlag⟩

/-- `CharacterTyper.type_text(text)`: join the previous typing thread if
it is alive (drain its remaining events), clear the stop event, then start
a new background task whose run will emit `evs`. -/
def type_text (s : EngineState) (evs : List Event) : EngineState :=
  ⟨s.emitted ++ s.pending, evs, false⟩

/-- `CharacterTyper.wait_until_done()`: join the typing thread. -/
def wait_until_done (s : EngineState) : EngineState :=
  ⟨s.emitted ++ s.pending, [], s.stopFlag⟩

/-- `CharacterTyper.stop_typing()`: set the stop event, then join the
typing thread.  In this lifecycle model `pending` is the list of events
the in-flight task will still emit before it exits (once the flag is set,
that remainder is what the running iteration still produces — bounded by
the trace-level cancellation theorem); the join blocks until those events
are out and the thread has exited, so afterwards nothing is pending. -/
def stop_typing (s : EngineState) : EngineState :=
  ⟨s.emitted ++ s.pending, [], true⟩

/-! ### Helper lemmas -/

theorem char_toNat_ofNat_small : ∀ m : ℕ, m < 125 → (Char.ofNat m).toNat = m := by
  decide

theorem isAlpha_toNat_bounds (c : Char) (h : c.isAlpha = true) :
    65 ≤ c.toNat ∧ c.toNat ≤ 122 := by
  simp only [Char.isAlpha, Char.isUpper, Char.isLower, Bool.or_eq_true,
    Bool.and_eq_true, decide_eq_true_eq, ge_iff_le] at h
  have r2 : c.val.toBitVec.toNat = c.toNat := rfl
  rcases h with ⟨h1, h2⟩ | ⟨h1, h2⟩ <;>
    · rw [UInt32.le_def, BitVec.le_def] at h1 h2
      rw [r2] at h1 h2
      exact ⟨le_trans (by decide) h1, le_trans h2 (by decide)⟩

theorem choiceOffset_mem (u : ℚ) (h0 : 0 ≤ u) (h1 : u < 1) :
    choiceOffset u ∈ ([-2, -1, 1, 2] : List Int) := by
  have hlt : ⌊u * 4⌋ < 4 := by
    rw [Int.floor_lt]
    push_cast
    nlinarith
  have hge : (0 : ℤ) ≤ ⌊u * 4⌋ := by
    apply Int.floor_nonneg.mpr
    positivity
  have hn : (⌊u * 4⌋).toNat < 4 := by omega
  unfold choiceOffset
  interval_cases h : (⌊u * 4⌋).toNat <;> simp_all [List.getD]

theorem choiceOffset_bounds (u : ℚ) (h0 : 0 ≤ u) (h1 : u < 1) :
    -2 ≤ choiceOffset u ∧ choiceOffset u ≤ 2 := by
  have hm := choiceOffset_mem u h0 h1
  simp only [List.mem_cons] at hm
  rcases hm with h | h | h | h | h <;>
    first
      | (rw [h]; exact ⟨by decide, by decide⟩)
      | exact absurd h (List.not_mem_nil _)

theorem randint1_bounds (n : ℕ) (u : ℚ) (h0 : 0 ≤ u) (h1 : u < 1) (hn : 1 ≤ n) :
    1 ≤ randint1 n u ∧ randint1 n u ≤ n := by
  unfold randint1
  have hlt : ⌊u * (n : ℚ)⌋ < n := by
    rw [Int.floor_lt]
    push_cast
    have hnq : (0 : ℚ) < (n : ℚ) := by exact_mod_cast hn
    nlinarith
  have hge : (0 : ℤ) ≤ ⌊u * (n : ℚ)⌋ := by
    apply Int.floor_nonneg.mpr
    positivity
  omega

theorem injectWithDelays_pos (tape : ℕ → ℚ) (a b : ℚ) :
    ∀ (cs : List Char) (p : ℕ), (injectWithDelays tape a b cs p).2 = p + cs.length := by
  intro cs
  induction cs with
  | nil => intro p; simp [injectWithDelays]
  | cons c cs ih =>
    intro p
    simp [injectWithDelays, ih]
    omega

theorem injectsOf_append (xs ys : List Event) :
    injectsOf (xs ++ ys) = injectsOf xs ++ injectsOf ys := by
  induction xs with
  | nil => simp [injectsOf]
  | cons e xs ih => cases e <;> simp [injectsOf, ih]

theorem injectsOf_iwd (tape : ℕ → ℚ) (a b : ℚ) :
    ∀ (cs : List Char) (p : ℕ), injectsOf (injectWithDelays tape a b cs p).1 = cs := by
  intro cs
  induction cs with
  | nil => intro p; simp [injectWithDelays, injectsOf]
  | cons c cs ih => intro p; simp [injectWithDelays, injectsOf, ih]

theorem length_iwd (tape : ℕ → ℚ) (a b : ℚ) :
    ∀ (cs : List Char) (p : ℕ),
      (injectWithDelays tape a b cs p).1.length = 2 * cs.length := by
  intro cs
  induction cs with
  | nil => intro p; simp [injectWithDelays]
  | cons c cs ih =>
    intro p
    simp [injectWithDelays, ih]
    omega

theorem mkTypoChars_length (tape : ℕ → ℚ) :
    ∀ (cs : List Char) (p : ℕ), (mkTypoChars tape cs p).1.length = cs.length := by
  intro cs
  induction cs with
  | nil => intro p; simp [mkTypoChars]
  | cons c cs ih =>
    intro p
    by_cases hc : c.isAlpha = true <;> simp [mkTypoChars, hc, ih]

theorem mkTypoChars_forall2 (tape : ℕ → ℚ) (hv : ValidTape tape) :
    ∀ (cs : List Char) (p : ℕ), List.Forall₂ typoSubst cs (mkTypoChars tape cs p).1 := by
  intro cs
  induction cs with
  | nil => intro p; simp [mkTypoChars]
  | cons c cs ih =>
    intro p
    by_cases hc : c.isAlpha = true
    · simp only [mkTypoChars, hc, if_pos]
      refine List.Forall₂.cons ?_ (ih (p + 1))
      unfold typoSubst
      rw [if_pos hc]
      refine ⟨choiceOffset (tape p), choiceOffset_mem _ (hv p).1 (hv p).2, ?_⟩
      have hb := isAlpha_toNat_bounds c hc
      have hoffb := choiceOffset_bounds (tape p) (hv p).1 (hv p).2
      have hge : (0 : ℤ) ≤ (c.toNat : Int) + choiceOffset (tape p) := by omega
      have hlt : ((c.toNat : Int) + choiceOffset (tape p)).toNat < 125 := by omega
      rw [char_toNat_ofNat_small _ hlt]
      omega
    · simp only [mkTypoChars, hc]
      rw [if_neg (by simp [hc])]
      refine List.Forall₂.cons ?_ (ih p)
      unfold typoSubst
      rw [if_neg (by simp [hc])]

theorem typoSubst_ne_bs (c tc : Char) (h : typoSubst c tc) (hc : c ≠ Char.ofNat 8) :
    tc ≠ Char.ofNat 8 := by
  unfold typoSubst at h
  by_cases ha : c.isAlpha = true
  · rw [if_pos ha] at h
    obtain ⟨off, hmem, heq⟩ := h
    have hb := isAlpha_toNat_bounds c ha
    have hoffb : -2 ≤ off ∧ off ≤ 2 := by
      simp only [List.mem_cons] at hmem
      rcases hmem with h | h | h | h | h <;>
        first
          | (rw [h]; exact ⟨by decide, by decide⟩)
          | exact absurd h (List.not_mem_nil _)
    intro hbs
    rw [hbs] at heq
    have : (Char.ofNat 8).toNat = 8 := by decide
    omega
  · rw [if_neg (by simp [ha])] at h
    rw [h]
    exact hc

theorem committed_append (xs ys : List Event) :
    ∀ acc, committed acc (xs ++ ys) = committed (committed acc xs) ys := by
  induction xs with
  | nil => intro acc; simp [committed]
  | cons e xs ih =>
    intro acc
    cases e with
    | inject c =>
      by_cases hc : c = Char.ofNat 8 <;> simp [committed, hc, ih]
    | sleep d => simp [committed, ih]

theorem committed_iwd_no_bs (tape : ℕ → ℚ) (a b : ℚ) :
    ∀ (cs : List Char), (∀ c ∈ cs, c ≠ Char.ofNat 8) →
      ∀ acc p, committed acc (injectWithDelays tape a b cs p).1 = acc ++ cs := by
  intro cs
  induction cs with
  | nil => intro _ acc p; simp [injectWithDelays, committed]
  | cons c cs ih =>
    intro hbs acc p
    have hc : c ≠ Char.ofNat 8 := hbs c (by simp)
    simp only [injectWithDelays, committed]
    rw [if_neg hc]
    rw [ih (fun x hx => hbs x (by simp [hx])) (acc ++ [c]) (p + 1)]
    simp

theorem committed_iwd_bs_cancel (tape : ℕ → ℚ) (a b : ℚ) :
    ∀ (tcs acc : List Char) (p : ℕ),
      committed (acc ++ tcs)
        (injectWithDelays tape a b (List.replicate tcs.length (Char.ofNat 8)) p).1 = acc := by
  intro tcs
  induction tcs using List.reverseRecOn with
  | nil => intro acc p; simp [injectWithDelays, committed]
  | append_singleton ts t ih =>
    intro acc p
    have hlen : (ts ++ [t]).length = ts.length + 1 := by simp
    rw [hlen, List.replicate_succ]
    simp only [injectWithDelays, committed]
    rw [if_pos trivial]
    have hdl : (acc ++ (ts ++ [t])).dropLast = acc ++ ts := by
      rw [← List.append_assoc, List.dropLast_concat]
    rw [hdl]
    exact ih acc (p + 1)

theorem simulate_typo_len_pos (cfg : TyperConfig) (tape : ℕ → ℚ) (rem : List Char)
    (p : ℕ) : 1 ≤ (simulate_typo cfg tape rem p).typo_length := by
  simp [simulate_typo, randint1]

theorem loop_stopped (cfg : TyperConfig) (tape : ℕ → ℚ) (stop : ℕ → Bool)
    (fuel : ℕ) (rem : List Char) (lc : Option Char) (p n : ℕ) (h : stop n = true) :
    simulate_typing_loop cfg tape stop fuel rem lc p n = ([], 0) := by
  cases fuel with
  | zero => rfl
  | succ f =>
    cases rem with
    | nil => rfl
    | cons c rest => simp [simulate_typing_loop, h]

theorem loop_fuel_irrel (cfg : TyperConfig) (tape : ℕ → ℚ) (stop : ℕ → Bool) :
    ∀ (fuel fuel2 : ℕ) (rem : List Char) (lc : Option Char) (p n : ℕ),
      rem.length ≤ fuel → rem.length ≤ fuel2 →
      simulate_typing_loop cfg tape stop fuel rem lc p n
        = simulate_typing_loop cfg tape stop fuel2 rem lc p n := by
  intro fuel
  induction fuel with
  | zero =>
    intro fuel2 rem lc p n h1 h2
    have hrem : rem = [] := by
      cases rem with
      | nil => rfl
      | cons c rest => simp at h1
    subst hrem
    cases fuel2 <;> rfl
  | succ f ih =>
    intro fuel2 rem lc p n h1 h2
    cases fuel2 with
    | zero =>
      have hrem : rem = [] := by
        cases rem with
        | nil => rfl
        | cons c rest => simp at h2
      subst hrem
      rfl
    | succ g =>
      cases rem with
      | nil => rfl
      | cons c rest =>
        have hrest1 : rest.length ≤ f := by simp at h1; omega
        have hrest2 : rest.length ≤ g := by simp at h2; omega
        simp only [simulate_typing_loop]
        by_cases hs : stop n = true
        · simp [hs]
        · rw [if_neg hs, if_neg hs]
          by_cases herr : tape p < cfg.errorRate ∧ c.isAlpha = true
          · rw [if_pos herr, if_pos herr]
            have hL := simulate_typo_len_pos cfg tape (c :: rest) (p + 1)
            have hd1 : ((c :: rest).drop
                (simulate_typo cfg tape (c :: rest) (p + 1)).typo_length).length ≤ f := by
              simp
              omega
            have hd2 : ((c :: rest).drop
                (simulate_typo cfg tape (c :: rest) (p + 1)).typo_length).length ≤ g := by
              simp
              omega
            rw [ih g _ lc _ _ hd1 hd2]
          · rw [if_neg herr, if_neg herr]
            cases hm : cfg.mode <;> dsimp only <;> rw [ih g _ _ _ _ hrest1 hrest2]

/-- The window of source characters a typo detour covers:
`text[i : i + typo_length]`. -/
def typoWindow (cfg : TyperConfig) (tape : ℕ → ℚ) (rem : List Char) (p : ℕ) :
    List Char :=
  rem.take (simulate_typo cfg tape rem p).typo_length

/-- The `typo_chars` a typo detour injects in place of its window. -/
def typoSubstituted (cfg : TyperConfig) (tape : ℕ → ℚ) (rem : List Char) (p : ℕ) :
    List Char :=
  (mkTypoChars tape (typoWindow cfg tape rem p) (p + 1)).1

theorem detour_injects (tape : ℕ → ℚ) (a b a2 b2 : ℚ) (tcs ws : List Char)
    (q1 q2 q3 : ℕ) (pz : ℚ) :
    injectsOf ((injectWithDelays tape a b tcs q1).1
        ++ Event.sleep pz
          :: ((injectWithDelays tape a2 b2 (List.replicate tcs.length (Char.ofNat 8)) q2).1
            ++ (injectWithDelays tape a b ws q3).1))
      = tcs ++ List.replicate tcs.length (Char.ofNat 8) ++ ws := by
  rw [injectsOf_append]
  simp only [injectsOf]
  rw [injectsOf_append, injectsOf_iwd, injectsOf_iwd, injectsOf_iwd, List.append_assoc]

theorem detour_committed (tape : ℕ → ℚ) (a b a2 b2 : ℚ) (tcs ws : List Char)
    (q1 q2 q3 : ℕ) (pz : ℚ)
    (h1 : ∀ x ∈ tcs, x ≠ Char.ofNat 8) (h2 : ∀ x ∈ ws, x ≠ Char.ofNat 8) :
    ∀ prior, committed prior
        ((injectWithDelays tape a b tcs q1).1
          ++ Event.sleep pz
            :: ((injectWithDelays tape a2 b2 (List.replicate tcs.length (Char.ofNat 8)) q2).1
              ++ (injectWithDelays tape a b ws q3).1))
      = prior ++ ws := by
  intro prior
  rw [committed_append, committed_iwd_no_bs tape a b tcs h1]
  simp only [committed]
  rw [committed_append, committed_iwd_bs_cancel, committed_iwd_no_bs tape a b ws h2]


/-- Every element of the right list of a `List.Forall₂` has a related
element in the left list. -/
theorem forall2_right_mem {α β : Type} {R : α → β → Prop} :
    ∀ {xs : List α} {ys : List β}, List.Forall₂ R xs ys →
      ∀ y ∈ ys, ∃ x ∈ xs, R x y := by
  intro xs ys h
  induction h with
  | nil => simp
  | cons hR hrest ih =>
    intro y hy
    rcases List.mem_cons.mp hy with rfl | hy
    · exact ⟨_, by simp, hR⟩
    · obtain ⟨x, hx, hR2⟩ := ih y hy
      exact ⟨x, by simp [hx], hR2⟩

/-- C1: a typo detour at cursor `i` (modelled on the remaining text
`c :: rest`) draws a window length `typo_length` between 1 and
`min 3 (remaining length)`, and its injected characters are exactly: the
`typo_length` window characters each substituted per `typoSubst`
(alphabetic ones offset by a value from `{-2, -1, 1, 2}` on the code
point, others copied), then one backspace (code point 8) per injected
window character, then the original window re-injected; committing the
detour's trace after any prior output appends exactly the original window
characters, and the typing loop then continues from the text with the
window dropped (cursor advanced by `typo_length`) without re-dispatching
those characters. -/
theorem typo_detour_preserves_content
    (cfg : TyperConfig) (tape : ℕ → ℚ) (c : Char) (rest : List Char) (p : ℕ)
    (hv : ValidTape tape)
    (hbs : ∀ x ∈ c :: rest, x ≠ Char.ofNat 8) :
    (1 ≤ (simulate_typo cfg tape (c :: rest) p).typo_length
      ∧ (simulate_typo cfg tape (c :: rest) p).typo_length ≤ min 3 (c :: rest).length
      ∧ (typoWindow cfg tape (c :: rest) p).length
          = (simulate_typo cfg tape (c :: rest) p).typo_length)
    ∧ List.Forall₂ typoSubst (typoWindow cfg tape (c :: rest) p)
        (typoSubstituted cfg tape (c :: rest) p)
    ∧ injectsOf (simulate_typo cfg tape (c :: rest) p).events
        = typoSubstituted cfg tape (c :: rest) p
          ++ List.replicate (simulate_typo cfg tape (c :: rest) p).typo_length (Char.ofNat 8)
          ++ typoWindow cfg tape (c :: rest) p
    ∧ (∀ prior, committed prior (simulate_typo cfg tape (c :: rest) p).events
        = prior ++ typoWindow cfg tape (c :: rest) p)
    ∧ (∀ (stop : ℕ → Bool) (n : ℕ), stop n = false →
        tape p < cfg.errorRate → c.isAlpha = true →
        simulate_typing cfg tape stop (c :: rest) p n
          = ((simulate_typo cfg tape (c :: rest) (p + 1)).events
              ++ (simulate_typing_loop cfg tape stop
                    ((c :: rest).drop (simulate_typo cfg tape (c :: rest) (p + 1)).typo_length).length
                    ((c :: rest).drop (simulate_typo cfg tape (c :: rest) (p + 1)).typo_length)
                    none (simulate_typo cfg tape (c :: rest) (p + 1)).pos
                    (n + (simulate_typo cfg tape (c :: rest) (p + 1)).events.length)).1,
             (simulate_typing_loop cfg tape stop
                    ((c :: rest).drop (simulate_typo cfg tape (c :: rest) (p + 1)).typo_length).length
                    ((c :: rest).drop (simulate_typo cfg tape (c :: rest) (p + 1)).typo_length)
                    none (simulate_typo cfg tape (c :: rest) (p + 1)).pos
                    (n + (simulate_typo cfg tape (c :: rest) (p + 1)).events.length)).2 + 1)) := by
  have hn : 1 ≤ min 3 (c :: rest).length := by simp
  obtain ⟨hL1, hL2⟩ := randint1_bounds (min 3 (c :: rest).length) (tape p)
    (hv p).1 (hv p).2 hn
  have hTL : (simulate_typo cfg tape (c :: rest) p).typo_length
      = randint1 (min 3 (c :: rest).length) (tape p) := rfl
  have hLle : (simulate_typo cfg tape (c :: rest) p).typo_length ≤ (c :: rest).length := by
    rw [hTL]
    exact le_trans hL2 (min_le_right _ _)
  have hWlen : (typoWindow cfg tape (c :: rest) p).length
      = (simulate_typo cfg tape (c :: rest) p).typo_length := by
    unfold typoWindow
    rw [List.length_take]
    omega
  have hF2 : List.Forall₂ typoSubst (typoWindow cfg tape (c :: rest) p)
      (typoSubstituted cfg tape (c :: rest) p) :=
    mkTypoChars_forall2 tape hv _ (p + 1)
  have hwbs : ∀ x ∈ typoWindow cfg tape (c :: rest) p, x ≠ Char.ofNat 8 :=
    fun x hx => hbs x (List.take_subset _ _ hx)
  have htbs : ∀ x ∈ typoSubstituted cfg tape (c :: rest) p, x ≠ Char.ofNat 8 := by
    intro x hx
    obtain ⟨y, hy, hR⟩ := forall2_right_mem hF2 x hx
    exact typoSubst_ne_bs y x hR (hwbs y hy)
  have hTlen : (typoSubstituted cfg tape (c :: rest) p).length
      = (simulate_typo cfg tape (c :: rest) p).typo_length := by
    unfold typoSubstituted
    rw [mkTypoChars_length]
    exact hWlen
  -- events decomposition, definitionally
  have hev : (simulate_typo cfg tape (c :: rest) p).events
      = (injectWithDelays tape cfg.delayMin cfg.delayMax
          (typoSubstituted cfg tape (c :: rest) p)
          (mkTypoChars tape (typoWindow cfg tape (c :: rest) p) (p + 1)).2).1
        ++ Event.sleep (uniformDraw (1/10) (3/10)
            (tape (injectWithDelays tape cfg.delayMin cfg.delayMax
              (typoSubstituted cfg tape (c :: rest) p)
              (mkTypoChars tape (typoWindow cfg tape (c :: rest) p) (p + 1)).2).2))
          :: ((injectWithDelays tape (1/20) (3/20)
              (List.replicate (typoSubstituted cfg tape (c :: rest) p).length (Char.ofNat 8))
              ((injectWithDelays tape cfg.delayMin cfg.delayMax
                (typoSubstituted cfg tape (c :: rest) p)
                (mkTypoChars tape (typoWindow cfg tape (c :: rest) p) (p + 1)).2).2 + 1)).1
            ++ (injectWithDelays tape cfg.delayMin cfg.delayMax
                (typoWindow cfg tape (c :: rest) p)
                (injectWithDelays tape (1/20) (3/20)
                  (List.replicate (typoSubstituted cfg tape (c :: rest) p).length (Char.ofNat 8))
                  ((injectWithDelays tape cfg.delayMin cfg.delayMax
                    (typoSubstituted cfg tape (c :: rest) p)
                    (mkTypoChars tape (typoWindow cfg tape (c :: rest) p) (p + 1)).2).2 + 1)).2).1) := rfl
  refine ⟨⟨by rw [hTL]; exact hL1, by rw [hTL]; exact hL2, hWlen⟩, hF2, ?_, ?_, ?_⟩
  · rw [hev, detour_injects, hTlen]
  · intro prior
    rw [hev, detour_committed tape cfg.delayMin cfg.delayMax (1/20) (3/20)
      (typoSubstituted cfg tape (c :: rest) p) (typoWindow cfg tape (c :: rest) p)
      _ _ _ _ htbs hwbs prior]
  · intro stop n hstop herr halpha
    have hL1b := simulate_typo_len_pos cfg tape (c :: rest) (p + 1)
    unfold simulate_typing
    simp only [List.length_cons, simulate_typing_loop]
    rw [if_neg (by simp [hstop]), if_pos ⟨herr, halpha⟩]
    have hdlen : ((c :: rest).drop
        (simulate_typo cfg tape (c :: rest) (p + 1)).typo_length).length ≤ rest.length := by
      simp
      omega
    rw [loop_fuel_irrel cfg tape stop rest.length
      ((c :: rest).drop (simulate_typo cfg tape (c :: rest) (p + 1)).typo_length).length
      _ none _ _ hdlen (le_refl _)]

/-- Witness for C1 at a concrete input: `text = "a"`, cursor 0, an
all-zero randomness tape, delay range `(0, 1)`, error rate 1. -/
theorem typo_detour_preserves_content_witness :
    (1 ≤ (simulate_typo ⟨0, 1, 1, TypingMode.INSTANT⟩ (fun _ => 0) ['a'] 0).typo_length
      ∧ (simulate_typo ⟨0, 1, 1, TypingMode.INSTANT⟩ (fun _ => 0) ['a'] 0).typo_length
          ≤ min 3 (['a'] : List Char).length
      ∧ (typoWindow ⟨0, 1, 1, TypingMode.INSTANT⟩ (fun _ => 0) ['a'] 0).length
          = (simulate_typo ⟨0, 1, 1, TypingMode.INSTANT⟩ (fun _ => 0) ['a'] 0).typo_length)
    ∧ List.Forall₂ typoSubst (typoWindow ⟨0, 1, 1, TypingMode.INSTANT⟩ (fun _ => 0) ['a'] 0)
        (typoSubstituted ⟨0, 1, 1, TypingMode.INSTANT⟩ (fun _ => 0) ['a'] 0)
    ∧ injectsOf (simulate_typo ⟨0, 1, 1, TypingMode.INSTANT⟩ (fun _ => 0) ['a'] 0).events
        = typoSubstituted ⟨0, 1, 1, TypingMode.INSTANT⟩ (fun _ => 0) ['a'] 0
          ++ List.replicate
              (simulate_typo ⟨0, 1, 1, TypingMode.INSTANT⟩ (fun _ => 0) ['a'] 0).typo_length
              (Char.ofNat 8)
          ++ typoWindow ⟨0, 1, 1, TypingMode.INSTANT⟩ (fun _ => 0) ['a'] 0
    ∧ (∀ prior, committed prior
          (simulate_typo ⟨0, 1, 1, TypingMode.INSTANT⟩ (fun _ => 0) ['a'] 0).events
        = prior ++ typoWindow ⟨0, 1, 1, TypingMode.INSTANT⟩ (fun _ => 0) ['a'] 0)
    ∧ (∀ (stop : ℕ → Bool) (n : ℕ), stop n = false →
        (fun _ => (0 : ℚ)) 0 < (⟨0, 1, 1, TypingMode.INSTANT⟩ : TyperConfig).errorRate →
        Char.isAlpha 'a' = true →
        simulate_typing ⟨0, 1, 1, TypingMode.INSTANT⟩ (fun _ => 0) stop ['a'] 0 n
          = ((simulate_typo ⟨0, 1, 1, TypingMode.INSTANT⟩ (fun _ => 0) ['a'] (0 + 1)).events
              ++ (simulate_typing_loop ⟨0, 1, 1, TypingMode.INSTANT⟩ (fun _ => 0) stop
                    ((['a'] : List Char).drop
                      (simulate_typo ⟨0, 1, 1, TypingMode.INSTANT⟩ (fun _ => 0) ['a'] (0 + 1)).typo_length).length
                    ((['a'] : List Char).drop
                      (simulate_typo ⟨0, 1, 1, TypingMode.INSTANT⟩ (fun _ => 0) ['a'] (0 + 1)).typo_length)
                    none (simulate_typo ⟨0, 1, 1, TypingMode.INSTANT⟩ (fun _ => 0) ['a'] (0 + 1)).pos
                    (n + (simulate_typo ⟨0, 1, 1, TypingMode.INSTANT⟩ (fun _ => 0) ['a'] (0 + 1)).events.length)).1,
             (simulate_typing_loop ⟨0, 1, 1, TypingMode.INSTANT⟩ (fun _ => 0) stop
                    ((['a'] : List Char).drop
                      (simulate_typo ⟨0, 1, 1, TypingMode.INSTANT⟩ (fun _ => 0) ['a'] (0 + 1)).typo_length).length
                    ((['a'] : List Char).drop
                      (simulate_typo ⟨0, 1, 1, TypingMode.INSTANT⟩ (fun _ => 0) ['a'] (0 + 1)).typo_length)
                    none (simulate_typo ⟨0, 1, 1, TypingMode.INSTANT⟩ (fun _ => 0) ['a'] (0 + 1)).pos
                    (n + (simulate_typo ⟨0, 1, 1, TypingMode.INSTANT⟩ (fun _ => 0) ['a'] (0 + 1)).events.length)).2
               + 1)) :=
  typo_detour_preserves_content ⟨0, 1, 1, TypingMode.INSTANT⟩ (fun _ => 0) 'a' [] 0
    (fun _ => ⟨le_refl 0, show (0 : ℚ) < 1 by decide⟩) (by decide)

/-- C7: for every configuration and every rational `x`, `set_error_rate x`
followed by reading the active error rate yields `max(0, min(1, x))`, a
value inside `[0, 1]`; the call never fails and touches no other
configuration field. -/
theorem set_error_rate_clamps (cfg : TyperConfig) (x : ℚ) :
    (set_error_rate cfg x).errorRate = max 0 (min 1 x)
    ∧ 0 ≤ (set_error_rate cfg x).errorRate
    ∧ (set_error_rate cfg x).errorRate ≤ 1
    ∧ (set_error_rate cfg x).delayMin = cfg.delayMin
    ∧ (set_error_rate cfg x).delayMax = cfg.delayMax
    ∧ (set_error_rate cfg x).mode = cfg.mode := by
  refine ⟨rfl, le_max_left 0 _, ?_, rfl, rfl, rfl⟩
  exact max_le zero_le_one (min_le_left _ _)

/-- C10: `set_typing_speed` stores exactly the pair it is given as the
active delay range, with no validation or normalization: this holds for
every pair, including a negative bound and an inverted pair such as
`(5, -3)`. -/
theorem set_typing_speed_no_validation (cfg : TyperConfig) (a b : ℚ) :
    ((set_typing_speed cfg a b).delayMin = a
      ∧ (set_typing_speed cfg a b).delayMax = b
      ∧ (set_typing_speed cfg a b).errorRate = cfg.errorRate
      ∧ (set_typing_speed cfg a b).mode = cfg.mode)
    ∧ (set_typing_speed initialConfig 5 (-3)).delayMin = 5
    ∧ (set_typing_speed initialConfig 5 (-3)).delayMax = -3 :=
  ⟨⟨rfl, rfl, rfl, rfl⟩, rfl, rfl⟩

/-- C8: `press_enter` always injects exactly one key-down/key-up pair for
the logical newline, whatever the configuration (mode, error rate): on
Windows the Enter virtual key `0x0D` with the unicode flag `0x4` not set,
on X11 the hard-mapped Return keysym `0xFF0D`; every other character goes
out as a generic unicode/code-point event. -/
theorem press_enter_newline_key (cfg cfg2 : TyperConfig)
    (keysymLookup : Char → ℕ) (keysymToKeycode : ℕ → ℕ) :
    press_enter_windows cfg = [⟨0x0D, 0, 0⟩, ⟨0x0D, 0, 0x2⟩]
    ∧ press_enter_windows cfg = press_enter_windows cfg2
    ∧ ((press_enter_windows cfg).map (fun e => e.dwFlags &&& 0x4) = [0, 0])
    ∧ press_enter_x11 cfg keysymLookup keysymToKeycode
        = [X11Event.keyPress (keysymToKeycode 0xFF0D),
           X11Event.keyRelease (keysymToKeycode 0xFF0D)]
    ∧ x11_keysym keysymLookup '\n' = 0xFF0D
    ∧ (∀ c : Char, c ≠ '\n' →
        windows_send_input c = [⟨0, c.toNat, 0x4⟩, ⟨0, c.toNat, 0x4 ||| 0x2⟩]) := by
  refine ⟨rfl, rfl, rfl, ?_, ?_, ?_⟩
  · unfold press_enter_x11 x11_send_input x11_keysym
    rw [if_pos rfl]
  · unfold x11_keysym
    rw [if_pos rfl]
  · intro c hc
    unfold windows_send_input
    rw [if_neg hc]

/-- Witness for C8's generic-character clause at `c = 'a'`. -/
theorem press_enter_newline_key_witness :
    windows_send_input 'a' = [⟨0, 'a'.toNat, 0x4⟩, ⟨0, 'a'.toNat, 0x4 ||| 0x2⟩] :=
  (press_enter_newline_key initialConfig initialConfig (fun _ => 0) id).2.2.2.2.2
    'a' (by decide)

theorem engineStep_inv (s : EngineState) :
    (engineStep s).emitted ++ (engineStep s).pending = s.emitted ++ s.pending := by
  obtain ⟨em, pe, fl⟩ := s
  cases pe <;> simp [engineStep]

theorem engineStep_iterate_inv (k : ℕ) (s : EngineState) :
    (engineStep^[k] s).emitted ++ (engineStep^[k] s).pending
      = s.emitted ++ s.pending := by
  induction k with
  | zero => simp
  | succ j ih =>
    rw [Function.iterate_succ_apply']
    rw [engineStep_inv]
    exact ih

/-- C3: starting a second typing task drains the first one before the new
task begins: whatever number `k` of background steps the first task got to
run on its own, after `type_text evA`, `k` scheduler steps, `type_text evB`
and a join, the emitted trace is exactly `evA ++ evB` (all of A's events
precede all of B's); the second `type_text` finds all of A emitted, holds
exactly B pending, and has cleared the stop flag. -/
theorem type_text_serializes (evA evB : List Event) (flag0 : Bool) (k : ℕ) :
    (wait_until_done (type_text (engineStep^[k] (type_text ⟨[], [], flag0⟩ evA)) evB)).emitted
      = evA ++ evB
    ∧ (type_text (engineStep^[k] (type_text ⟨[], [], flag0⟩ evA)) evB).emitted = evA
    ∧ (type_text (engineStep^[k] (type_text ⟨[], [], flag0⟩ evA)) evB).pending = evB
    ∧ (type_text (engineStep^[k] (type_text ⟨[], [], flag0⟩ evA)) evB).stopFlag = false := by
  have key := engineStep_iterate_inv k (type_text ⟨[], [], flag0⟩ evA)
  have h1 : (type_text (⟨[], [], flag0⟩ : EngineState) evA).emitted
      ++ (type_text (⟨[], [], flag0⟩ : EngineState) evA).pending = evA := by
    simp [type_text]
  rw [h1] at key
  generalize hs2 : engineStep^[k] (type_text (⟨[], [], flag0⟩ : EngineState) evA) = s2 at key ⊢
  refine ⟨?_, key, rfl, rfl⟩
  show (s2.emitted ++ s2.pending) ++ evB = evA ++ evB
  rw [key]

theorem loop_count_no_alpha (cfg : TyperConfig) (tape : ℕ → ℚ) (stop : ℕ → Bool) :
    ∀ (fuel : ℕ) (rem : List Char) (lc : Option Char) (p n : ℕ),
      (∀ x ∈ rem, x.isAlpha = false) →
      (simulate_typing_loop cfg tape stop fuel rem lc p n).2 = 0 := by
  intro fuel
  induction fuel with
  | zero => intro rem lc p n _; rfl
  | succ f ih =>
    intro rem lc p n hna
    cases rem with
    | nil => rfl
    | cons c rest =>
      have hc : c.isAlpha = false := hna c (by simp)
      have herr : ¬(tape p < cfg.errorRate ∧ c.isAlpha = true) := by
        rintro ⟨-, ha⟩
        rw [hc] at ha
        exact Bool.false_ne_true ha
      have hrest : ∀ x ∈ rest, x.isAlpha = false :=
        fun x hx => hna x (by simp [hx])
      simp only [simulate_typing_loop]
      by_cases hs : stop n = true
      · rw [if_pos hs]
      · rw [if_neg hs, if_neg herr]
        cases hm : cfg.mode <;> dsimp only <;> exact ih rest (some c) _ _ hrest

theorem loop_count_no_error_rate (cfg : TyperConfig) (tape : ℕ → ℚ) (stop : ℕ → Bool)
    (hv : ValidTape tape) (hzero : cfg.errorRate ≤ 0) :
    ∀ (fuel : ℕ) (rem : List Char) (lc : Option Char) (p n : ℕ),
      (simulate_typing_loop cfg tape stop fuel rem lc p n).2 = 0 := by
  intro fuel
  induction fuel with
  | zero => intro rem lc p n; rfl
  | succ f ih =>
    intro rem lc p n
    cases rem with
    | nil => rfl
    | cons c rest =>
      have herr : ¬(tape p < cfg.errorRate ∧ c.isAlpha = true) := by
        rintro ⟨hlt, -⟩
        exact absurd hlt (not_lt.mpr (le_trans hzero (hv p).1))
      simp only [simulate_typing_loop]
      by_cases hs : stop n = true
      · rw [if_pos hs]
      · rw [if_neg hs, if_neg herr]
        cases hm : cfg.mode <;> dsimp only <;> exact ih rest (some c) _ _

/-- C6: the typo detour is entered only for an alphabetic character whose
error draw is below the active error rate: a text without alphabetic
characters never triggers a detour (any error rate, any tape), an error
rate clamped to 0 never triggers a detour on any text, and when a detour
does run its window length is drawn from 1 to `min 3 (remaining length)`. -/
theorem typo_trigger_condition (cfg : TyperConfig) (tape : ℕ → ℚ) (stop : ℕ → Bool) :
    (∀ (text : List Char) (p n : ℕ), (∀ x ∈ text, x.isAlpha = false) →
        (simulate_typing cfg tape stop text p n).2 = 0)
    ∧ (ValidTape tape → cfg.errorRate ≤ 0 →
        ∀ (text : List Char) (p n : ℕ),
          (simulate_typing cfg tape stop text p n).2 = 0)
    ∧ (ValidTape tape → ∀ (rem : List Char) (p : ℕ), 1 ≤ rem.length →
        1 ≤ (simulate_typo cfg tape rem p).typo_length
          ∧ (simulate_typo cfg tape rem p).typo_length ≤ min 3 rem.length) := by
  refine ⟨?_, ?_, ?_⟩
  · intro text p n hna
    exact loop_count_no_alpha cfg tape stop text.length text none p n hna
  · intro hv hzero text p n
    exact loop_count_no_error_rate cfg tape stop hv hzero text.length text none p n
  · intro hv rem p hrem
    have hn : 1 ≤ min 3 rem.length := by omega
    obtain ⟨h1, h2⟩ := randint1_bounds (min 3 rem.length) (tape p) (hv p).1 (hv p).2 hn
    exact ⟨h1, h2⟩

/-- Witness for C6: a digits-only text triggers no detour even with error
rate 1, and a detour window at `"ab"` has length between 1 and 2. -/
theorem typo_trigger_condition_witness :
    (simulate_typing ⟨0, 1, 1, TypingMode.HUMAN_LIKE⟩ (fun _ => 0) (fun _ => false)
        ['1', '2', '3'] 0 0).2 = 0
    ∧ (simulate_typing ⟨0, 1, 0, TypingMode.HUMAN_LIKE⟩ (fun _ => 0) (fun _ => false)
        ['a', 'b'] 0 0).2 = 0
    ∧ (1 ≤ (simulate_typo ⟨0, 1, 1, TypingMode.HUMAN_LIKE⟩ (fun _ => 0) ['a', 'b'] 0).typo_length
        ∧ (simulate_typo ⟨0, 1, 1, TypingMode.HUMAN_LIKE⟩ (fun _ => 0)
            ['a', 'b'] 0).typo_length ≤ min 3 (['a', 'b'] : List Char).length) :=
  ⟨(typo_trigger_condition ⟨0, 1, 1, TypingMode.HUMAN_LIKE⟩ (fun _ => 0) (fun _ => false)).1
      ['1', '2', '3'] 0 0 (by decide),
   (typo_trigger_condition ⟨0, 1, 0, TypingMode.HUMAN_LIKE⟩ (fun _ => 0) (fun _ => false)).2.1
      (fun _ => ⟨le_refl 0, show (0 : ℚ) < 1 by decide⟩) (le_refl 0) ['a', 'b'] 0 0,
   (typo_trigger_condition ⟨0, 1, 1, TypingMode.HUMAN_LIKE⟩ (fun _ => 0) (fun _ => false)).2.2
      (fun _ => ⟨le_refl 0, show (0 : ℚ) < 1 by decide⟩) ['a', 'b'] 0 (by decide)⟩

theorem loop_instant_step (cfg : TyperConfig) (tape : ℕ → ℚ) (stop : ℕ → Bool)
    (c : Char) (rest : List Char) (lc : Option Char) (p n : ℕ)
    (hmode : cfg.mode = TypingMode.INSTANT) (hs : stop n = false)
    (herr : ¬(tape p < cfg.errorRate ∧ c.isAlpha = true)) :
    simulate_typing_loop cfg tape stop (c :: rest).length (c :: rest) lc p n
      = (Event.inject c
          :: (simulate_typing_loop cfg tape stop rest.length rest (some c) (p + 1) (n + 1)).1,
         (simulate_typing_loop cfg tape stop rest.length rest (some c) (p + 1) (n + 1)).2) := by
  show simulate_typing_loop cfg tape stop (rest.length + 1) (c :: rest) lc p n = _
  simp only [simulate_typing_loop]
  rw [if_neg (by simp [hs]), if_neg herr, hmode]

theorem loop_machinegun_step (cfg : TyperConfig) (tape : ℕ → ℚ) (stop : ℕ → Bool)
    (c : Char) (rest : List Char) (lc : Option Char) (p n : ℕ)
    (hmode : cfg.mode = TypingMode.MACHINE_GUN) (hs : stop n = false)
    (herr : ¬(tape p < cfg.errorRate ∧ c.isAlpha = true)) :
    simulate_typing_loop cfg tape stop (c :: rest).length (c :: rest) lc p n
      = (Event.inject c :: Event.sleep cfg.delayMin
          :: (simulate_typing_loop cfg tape stop rest.length rest (some c) (p + 1) (n + 2)).1,
         (simulate_typing_loop cfg tape stop rest.length rest (some c) (p + 1) (n + 2)).2) := by
  show simulate_typing_loop cfg tape stop (rest.length + 1) (c :: rest) lc p n = _
  simp only [simulate_typing_loop]
  rw [if_neg (by simp [hs]), if_neg herr, hmode]

theorem loop_humanlike_step (cfg : TyperConfig) (tape : ℕ → ℚ) (stop : ℕ → Bool)
    (c : Char) (rest : List Char) (lc : Option Char) (p n : ℕ)
    (hmode : cfg.mode = TypingMode.HUMAN_LIKE) (hs : stop n = false)
    (herr : ¬(tape p < cfg.errorRate ∧ c.isAlpha = true)) :
    simulate_typing_loop cfg tape stop (c :: rest).length (c :: rest) lc p n
      = (Event.inject c
          :: Event.sleep (uniformDraw cfg.delayMin cfg.delayMax (tape (p + 1))
              * (if c ∈ ([',', ';', ':'] : List Char) then 3/2
                 else if c ∈ (['.', '!', '?'] : List Char) then 2 else 1)
              * (if some c = lc then 4/5 else 1))
          :: (simulate_typing_loop cfg tape stop rest.length rest (some c) (p + 2) (n + 2)).1,
         (simulate_typing_loop cfg tape stop rest.length rest (some c) (p + 2) (n + 2)).2) := by
  show simulate_typing_loop cfg tape stop (rest.length + 1) (c :: rest) lc p n = _
  simp only [simulate_typing_loop]
  rw [if_neg (by simp [hs]), if_neg herr, hmode]
  dsimp only
  by_cases h1 : c ∈ ([',', ';', ':'] : List Char) <;>
    by_cases h2 : c ∈ (['.', '!', '?'] : List Char) <;>
    by_cases h3 : some c = lc <;>
    simp [h1, h2, h3, mul_one]

theorem loop_instant_range_free (tape : ℕ → ℚ) (stop : ℕ → Bool)
    (a b a2 b2 er : ℚ) (hv : ValidTape tape) (her : er ≤ 0) :
    ∀ (fuel : ℕ) (rem : List Char) (lc : Option Char) (p n : ℕ),
      simulate_typing_loop ⟨a, b, er, TypingMode.INSTANT⟩ tape stop fuel rem lc p n
        = simulate_typing_loop ⟨a2, b2, er, TypingMode.INSTANT⟩ tape stop fuel rem lc p n := by
  intro fuel
  induction fuel with
  | zero => intro rem lc p n; rfl
  | succ f ih =>
    intro rem lc p n
    cases rem with
    | nil => rfl
    | cons c rest =>
      have herr : ¬(tape p < er ∧ c.isAlpha = true) := by
        rintro ⟨hlt, -⟩
        exact absurd hlt (not_lt.mpr (le_trans her (hv p).1))
      simp only [simulate_typing_loop]
      by_cases hs : stop n = true
      · rw [if_pos hs, if_pos hs]
      · rw [if_neg hs, if_neg hs, if_neg herr, if_neg herr]
        rw [ih rest (some c) (p + 1) (n + 1)]

/-- C5 (amended): a character dispatched normally in Instant mode is
injected with no sleep at all, one dispatched in MachineGun mode is
followed by a sleep of exactly the lower bound of the delay range, and an
Instant-mode run is independent of the delay range whenever no typo detour
can occur (error rate at most 0); with a positive error rate a detour's
sleeps do depend on the delay range even in Instant mode (see the
counterexample). -/
theorem mode_delay_model (cfg : TyperConfig) (tape : ℕ → ℚ) (stop : ℕ → Bool)
    (c : Char) (rest : List Char) (lc : Option Char) (p n : ℕ)
    (hs : stop n = false) (herr : ¬(tape p < cfg.errorRate ∧ c.isAlpha = true)) :
    (cfg.mode = TypingMode.INSTANT →
      simulate_typing_loop cfg tape stop (c :: rest).length (c :: rest) lc p n
        = (Event.inject c
            :: (simulate_typing_loop cfg tape stop rest.length rest (some c) (p + 1) (n + 1)).1,
           (simulate_typing_loop cfg tape stop rest.length rest (some c) (p + 1) (n + 1)).2))
    ∧ (cfg.mode = TypingMode.MACHINE_GUN →
      simulate_typing_loop cfg tape stop (c :: rest).length (c :: rest) lc p n
        = (Event.inject c :: Event.sleep cfg.delayMin
            :: (simulate_typing_loop cfg tape stop rest.length rest (some c) (p + 1) (n + 2)).1,
           (simulate_typing_loop cfg tape stop rest.length rest (some c) (p + 1) (n + 2)).2))
    ∧ (∀ (a b a2 b2 er : ℚ), ValidTape tape → er ≤ 0 →
        ∀ (text : List Char) (q m : ℕ),
          simulate_typing ⟨a, b, er, TypingMode.INSTANT⟩ tape stop text q m
            = simulate_typing ⟨a2, b2, er, TypingMode.INSTANT⟩ tape stop text q m) := by
  refine ⟨?_, ?_, ?_⟩
  · intro hmode
    exact loop_instant_step cfg tape stop c rest lc p n hmode hs herr
  · intro hmode
    exact loop_machinegun_step cfg tape stop c rest lc p n hmode hs herr
  · intro a b a2 b2 er hv her text q m
    exact loop_instant_range_free tape stop a b a2 b2 er hv her text.length text none q m

/-- Counterexample for C5 as stated: with the default-style positive error
rate (here 1) a typo detour fires in Instant mode, and its sleeps follow
the delay range, so the delays of an Instant-mode task are not independent
of `delayRange`: delay ranges `(0, 0)` and `(1, 1)` give different traces
on the text `"a"` with the same randomness. -/
theorem instant_delay_independence_counterexample :
    simulate_typing ⟨0, 0, 1, TypingMode.INSTANT⟩ (fun _ => 0) (fun _ => false) ['a'] 0 0
      ≠ simulate_typing ⟨1, 1, 1, TypingMode.INSTANT⟩ (fun _ => 0) (fun _ => false) ['a'] 0 0 := by
  norm_num [simulate_typing, simulate_typing_loop, simulate_typo, mkTypoChars,
    injectWithDelays, uniformDraw, randint1, choiceOffset,
    (show ('a'.isAlpha) = true by decide)]

/-- Witness for C5's amended statement: Instant dispatch of `'x'` with no
sleep, MachineGun dispatch with a `delayMin` sleep, and delay-range
independence of an error-rate-0 Instant run. -/
theorem mode_delay_model_witness :
    (simulate_typing_loop ⟨5, 7, 0, TypingMode.INSTANT⟩ (fun _ => 0) (fun _ => false)
        (['x'] : List Char).length ['x'] none 0 0
      = (Event.inject 'x'
          :: (simulate_typing_loop ⟨5, 7, 0, TypingMode.INSTANT⟩ (fun _ => 0) (fun _ => false)
                ([] : List Char).length [] (some 'x') (0 + 1) (0 + 1)).1,
         (simulate_typing_loop ⟨5, 7, 0, TypingMode.INSTANT⟩ (fun _ => 0) (fun _ => false)
                ([] : List Char).length [] (some 'x') (0 + 1) (0 + 1)).2))
    ∧ (simulate_typing_loop ⟨5, 7, 0, TypingMode.MACHINE_GUN⟩ (fun _ => 0) (fun _ => false)
        (['x'] : List Char).length ['x'] none 0 0
      = (Event.inject 'x' :: Event.sleep (5 : ℚ)
          :: (simulate_typing_loop ⟨5, 7, 0, TypingMode.MACHINE_GUN⟩ (fun _ => 0) (fun _ => false)
                ([] : List Char).length [] (some 'x') (0 + 1) (0 + 2)).1,
         (simulate_typing_loop ⟨5, 7, 0, TypingMode.MACHINE_GUN⟩ (fun _ => 0) (fun _ => false)
                ([] : List Char).length [] (some 'x') (0 + 1) (0 + 2)).2))
    ∧ simulate_typing ⟨5, 7, 0, TypingMode.INSTANT⟩ (fun _ => 0) (fun _ => false) ['x', 'y'] 0 0
        = simulate_typing ⟨2, 3, 0, TypingMode.INSTANT⟩ (fun _ => 0) (fun _ => false) ['x', 'y'] 0 0 := by
  have h1 := mode_delay_model ⟨5, 7, 0, TypingMode.INSTANT⟩ (fun _ => 0) (fun _ => false)
    'x' [] none 0 0 rfl
    (fun hcontra => absurd hcontra.1 (show ¬(0 : ℚ) < 0 by decide))
  have h2 := mode_delay_model ⟨5, 7, 0, TypingMode.MACHINE_GUN⟩ (fun _ => 0) (fun _ => false)
    'x' [] none 0 0 rfl
    (fun hcontra => absurd hcontra.1 (show ¬(0 : ℚ) < 0 by decide))
  exact ⟨h1.1 rfl, h2.2.1 rfl,
    h1.2.2 5 7 2 3 0 (fun _ => ⟨le_refl 0, show (0 : ℚ) < 1 by decide⟩) (le_refl 0)
      ['x', 'y'] 0 0⟩

/-- Counterexample for C4 as stated: on `"aba"` with a detour covering the
`'b'`, the final `'a'` is dispatched normally and the injection
immediately preceding it is the corrected `'b'` (≠ `'a'`), so the claimed
formula gives the plain base draw `uniformDraw 0 1 (1/2) * 1 * 1 = 1/2`;
the engine instead applies the 0.8 repeated-key factor (its `last_char`
reference is the character dispatched before the detour, which a detour
does not update) and sleeps `2/5`. -/
theorem humanlike_repeat_factor_counterexample :
    (simulate_typing ⟨0, 1, 1/4, TypingMode.HUMAN_LIKE⟩
        (fun p => if p = 2 ∨ p = 3 ∨ p = 4 then 0 else 1/2) (fun _ => false)
        ['a', 'b', 'a'] 0 0
      = ([Event.inject 'a', Event.sleep (1/2), Event.inject '`', Event.sleep (1/2),
          Event.sleep (1/5), Event.inject (Char.ofNat 8), Event.sleep (1/10),
          Event.inject 'b', Event.sleep (1/2), Event.inject 'a', Event.sleep (2/5)], 1))
    ∧ (2 : ℚ)/5 ≠ uniformDraw 0 1 (1/2) * 1 * 1 := by
  constructor
  · norm_num [simulate_typing, simulate_typing_loop, simulate_typo, mkTypoChars,
      injectWithDelays, uniformDraw, randint1, choiceOffset,
      (show ('a'.isAlpha) = true by decide), (show ('b'.isAlpha) = true by decide),
      (show ('a' = ',') = False by decide), (show ('a' = ';') = False by decide),
      (show ('a' = ':') = False by decide), (show ('a' = '.') = False by decide),
      (show ('a' = '!') = False by decide), (show ('a' = '?') = False by decide)]
    decide
  · norm_num [uniformDraw]

/-- C4 (amended): a character dispatched normally in HumanLike mode sleeps
for a uniform draw from the delay range multiplied by 1.5 for `,;:`, by
2.0 for `.!?`, and by 0.8 when the character equals the engine's
`last_char` — the most recently normally-dispatched character, which a typo
detour does not update (so it is the immediately preceding injected
character only when no detour intervened); in particular `"hi."` with
error rate 0 injects exactly `h`, `i`, `.` in order, each injection
followed by its delay, and the delay after `'.'` is 2.0 times the base
draw. -/
theorem humanlike_delay_model (cfg : TyperConfig) (tape : ℕ → ℚ) (stop : ℕ → Bool)
    (c : Char) (rest : List Char) (lc : Option Char) (p n : ℕ)
    (hmode : cfg.mode = TypingMode.HUMAN_LIKE) (hs : stop n = false)
    (herr : ¬(tape p < cfg.errorRate ∧ c.isAlpha = true)) :
    (simulate_typing_loop cfg tape stop (c :: rest).length (c :: rest) lc p n
      = (Event.inject c
          :: Event.sleep (uniformDraw cfg.delayMin cfg.delayMax (tape (p + 1))
              * (if c ∈ ([',', ';', ':'] : List Char) then 3/2
                 else if c ∈ (['.', '!', '?'] : List Char) then 2 else 1)
              * (if some c = lc then 4/5 else 1))
          :: (simulate_typing_loop cfg tape stop rest.length rest (some c) (p + 2) (n + 2)).1,
         (simulate_typing_loop cfg tape stop rest.length rest (some c) (p + 2) (n + 2)).2))
    ∧ (∀ (a b : ℚ) (tape2 : ℕ → ℚ), ValidTape tape2 →
        simulate_typing ⟨a, b, 0, TypingMode.HUMAN_LIKE⟩ tape2 (fun _ => false)
          ['h', 'i', '.'] 0 0
        = ([Event.inject 'h', Event.sleep (uniformDraw a b (tape2 1)),
            Event.inject 'i', Event.sleep (uniformDraw a b (tape2 3)),
            Event.inject '.', Event.sleep (uniformDraw a b (tape2 5) * 2)], 0)) := by
  constructor
  · exact loop_humanlike_step cfg tape stop c rest lc p n hmode hs herr
  · intro a b tape2 hv2
    have herr0 : ∀ (q : ℕ) (c2 : Char),
        ¬(tape2 q < (⟨a, b, 0, TypingMode.HUMAN_LIKE⟩ : TyperConfig).errorRate
          ∧ c2.isAlpha = true) := by
      intro q c2
      rintro ⟨hlt, -⟩
      exact absurd hlt (not_lt.mpr (hv2 q).1)
    show simulate_typing_loop ⟨a, b, 0, TypingMode.HUMAN_LIKE⟩ tape2 (fun _ => false)
      (['h', 'i', '.'] : List Char).length ['h', 'i', '.'] none 0 0 = _
    rw [loop_humanlike_step ⟨a, b, 0, TypingMode.HUMAN_LIKE⟩ tape2 (fun _ => false)
      'h' ['i', '.'] none 0 0 rfl rfl (herr0 0 'h')]
    rw [loop_humanlike_step ⟨a, b, 0, TypingMode.HUMAN_LIKE⟩ tape2 (fun _ => false)
      'i' ['.'] (some 'h') 2 2 rfl rfl (herr0 2 'i')]
    rw [loop_humanlike_step ⟨a, b, 0, TypingMode.HUMAN_LIKE⟩ tape2 (fun _ => false)
      '.' [] (some 'i') 4 4 rfl rfl (herr0 4 '.')]
    simp [simulate_typing_loop,
      (show ('h' ∈ ([',', ';', ':'] : List Char)) = False by decide),
      (show ('h' ∈ (['.', '!', '?'] : List Char)) = False by decide),
      (show ('i' ∈ ([',', ';', ':'] : List Char)) = False by decide),
      (show ('i' ∈ (['.', '!', '?'] : List Char)) = False by decide),
      (show ('.' ∈ ([',', ';', ':'] : List Char)) = False by decide),
      (show ('.' ∈ (['.', '!', '?'] : List Char)) = True by decide),
      (show ('.' = 'i') = False by decide), (show ('i' = 'h') = False by decide)]

/-- Witness for C4's amended statement: a punctuation dispatch at `','`
with a repeated-character reference, and the concrete `"hi."` example. -/
theorem humanlike_delay_model_witness :
    (simulate_typing_loop ⟨0, 1, 0, TypingMode.HUMAN_LIKE⟩ (fun _ => (0 : ℚ))
        (fun _ => false) ([','] : List Char).length [','] (some ',') 0 0
      = (Event.inject ','
          :: Event.sleep (uniformDraw 0 1 ((fun _ => (0 : ℚ)) 1)
              * (if ',' ∈ ([',', ';', ':'] : List Char) then 3/2
                 else if ',' ∈ (['.', '!', '?'] : List Char) then 2 else 1)
              * (if some ',' = some ',' then 4/5 else 1))
          :: (simulate_typing_loop ⟨0, 1, 0, TypingMode.HUMAN_LIKE⟩ (fun _ => (0 : ℚ))
                (fun _ => false) ([] : List Char).length [] (some ',') (0 + 2) (0 + 2)).1,
         (simulate_typing_loop ⟨0, 1, 0, TypingMode.HUMAN_LIKE⟩ (fun _ => (0 : ℚ))
                (fun _ => false) ([] : List Char).length [] (some ',') (0 + 2) (0 + 2)).2))
    ∧ simulate_typing ⟨0, 1, 0, TypingMode.HUMAN_LIKE⟩ (fun _ => (0 : ℚ)) (fun _ => false)
        ['h', 'i', '.'] 0 0
      = ([Event.inject 'h', Event.sleep (uniformDraw 0 1 ((fun _ => (0 : ℚ)) 1)),
          Event.inject 'i', Event.sleep (uniformDraw 0 1 ((fun _ => (0 : ℚ)) 3)),
          Event.inject '.', Event.sleep (uniformDraw 0 1 ((fun _ => (0 : ℚ)) 5) * 2)], 0) :=
  have h := humanlike_delay_model ⟨0, 1, 0, TypingMode.HUMAN_LIKE⟩ (fun _ => (0 : ℚ))
    (fun _ => false) ',' [] (some ',') 0 0 rfl rfl
    (fun hcontra => absurd hcontra.1 (show ¬(0 : ℚ) < 0 by decide))
  ⟨h.1, h.2 0 1 (fun _ => (0 : ℚ))
    (fun _ => ⟨le_refl 0, show (0 : ℚ) < 1 by decide⟩)⟩

theorem uniformDraw_bounds (a b u : ℚ) (hab : a ≤ b) (h0 : 0 ≤ u) (h1 : u < 1) :
    a ≤ uniformDraw a b u ∧ uniformDraw a b u ≤ b := by
  unfold uniformDraw
  constructor <;> nlinarith

theorem noBareInject_iwd (tape : ℕ → ℚ) (a b : ℚ) :
    ∀ (cs : List Char) (p : ℕ),
      noBareInject (injectWithDelays tape a b cs p).1 = true := by
  intro cs
  induction cs with
  | nil => intro p; rfl
  | cons c cs ih => intro p; simp only [injectWithDelays, noBareInject]; exact ih (p + 1)

theorem noBareInject_append :
    ∀ (xs ys : List Event), noBareInject xs = true → noBareInject ys = true →
      noBareInject (xs ++ ys) = true
  | [], _, _, hy => hy
  | Event.inject _ :: Event.sleep _ :: xs, ys, hx, hy => by
    simp only [noBareInject] at hx
    simp only [List.cons_append, noBareInject]
    exact noBareInject_append xs ys hx hy
  | Event.sleep _ :: xs, ys, hx, hy => by
    simp only [noBareInject] at hx
    simp only [List.cons_append, noBareInject]
    exact noBareInject_append xs ys hx hy
  | [Event.inject _], _, hx, _ => by simp [noBareInject] at hx
  | Event.inject _ :: Event.inject _ :: _, _, hx, _ => by simp [noBareInject] at hx

theorem iwd_sleepsWithin (tape : ℕ → ℚ) (a b : ℚ) (hab : a ≤ b) (hv : ValidTape tape) :
    ∀ (cs : List Char) (p : ℕ),
      sleepsWithin a b (injectWithDelays tape a b cs p).1 := by
  intro cs
  induction cs with
  | nil => intro p d hd; simp [injectWithDelays] at hd
  | cons c cs ih =>
    intro p d hd
    simp only [injectWithDelays, List.mem_cons] at hd
    rcases hd with h | h | h
    · exact absurd h (by simp)
    · have hdq : d = uniformDraw a b (tape p) := by
        injection h
      rw [hdq]
      exact uniformDraw_bounds a b (tape p) hab (hv p).1 (hv p).2
    · exact ih (p + 1) d h

/-- C9: inside a typo detour every injection is immediately followed by a
sleep regardless of the active TypingMode (the detour never consults the
mode): each typo character and each re-injected original is followed by a
uniform draw from the delay range, each backspace by a draw from
`[0.05, 0.15]`, and the error-recognition pause is a draw from
`[0.1, 0.3]`; consequently even an Instant-mode detour is not delay-free,
and its sleeps depend on the delay range (witnessed by the final
inequality). -/
theorem typo_detour_sleeps (cfg : TyperConfig) (m : TypingMode) (tape : ℕ → ℚ)
    (rem : List Char) (p : ℕ) :
    (simulate_typo (set_typing_mode cfg m) tape rem p = simulate_typo cfg tape rem p)
    ∧ noBareInject (simulate_typo cfg tape rem p).events = true
    ∧ (ValidTape tape → cfg.delayMin ≤ cfg.delayMax →
        ∃ E1 E2 E3 pz,
          (simulate_typo cfg tape rem p).events = E1 ++ Event.sleep pz :: (E2 ++ E3)
          ∧ sleepsWithin cfg.delayMin cfg.delayMax E1
          ∧ injectsOf E1 = typoSubstituted cfg tape rem p
          ∧ sleepsWithin (1/20) (3/20) E2
          ∧ injectsOf E2 = List.replicate (typoSubstituted cfg tape rem p).length (Char.ofNat 8)
          ∧ sleepsWithin cfg.delayMin cfg.delayMax E3
          ∧ injectsOf E3 = typoWindow cfg tape rem p
          ∧ 1/10 ≤ pz ∧ pz ≤ 3/10)
    ∧ simulate_typo ⟨0, 0, 1, TypingMode.INSTANT⟩ (fun _ => 0) ['a'] 0
        ≠ simulate_typo ⟨1, 1, 1, TypingMode.INSTANT⟩ (fun _ => 0) ['a'] 0 := by
  have hev : (simulate_typo cfg tape rem p).events
      = (injectWithDelays tape cfg.delayMin cfg.delayMax
          (typoSubstituted cfg tape rem p)
          (mkTypoChars tape (typoWindow cfg tape rem p) (p + 1)).2).1
        ++ Event.sleep (uniformDraw (1/10) (3/10)
            (tape (injectWithDelays tape cfg.delayMin cfg.delayMax
              (typoSubstituted cfg tape rem p)
              (mkTypoChars tape (typoWindow cfg tape rem p) (p + 1)).2).2))
          :: ((injectWithDelays tape (1/20) (3/20)
              (List.replicate (typoSubstituted cfg tape rem p).length (Char.ofNat 8))
              ((injectWithDelays tape cfg.delayMin cfg.delayMax
                (typoSubstituted cfg tape rem p)
                (mkTypoChars tape (typoWindow cfg tape rem p) (p + 1)).2).2 + 1)).1
            ++ (injectWithDelays tape cfg.delayMin cfg.delayMax
                (typoWindow cfg tape rem p)
                (injectWithDelays tape (1/20) (3/20)
                  (List.replicate (typoSubstituted cfg tape rem p).length (Char.ofNat 8))
                  ((injectWithDelays tape cfg.delayMin cfg.delayMax
                    (typoSubstituted cfg tape rem p)
                    (mkTypoChars tape (typoWindow cfg tape rem p) (p + 1)).2).2 + 1)).2).1) := rfl
  refine ⟨rfl, ?_, ?_, ?_⟩
  · rw [hev]
    apply noBareInject_append
    · exact noBareInject_iwd tape _ _ _ _
    · simp only [noBareInject]
      exact noBareInject_append _ _ (noBareInject_iwd tape _ _ _ _)
        (noBareInject_iwd tape _ _ _ _)
  · intro hv hab
    refine ⟨_, _, _, _, hev, ?_, ?_, ?_, ?_, ?_, ?_, ?_, ?_⟩
    · exact iwd_sleepsWithin tape _ _ hab hv _ _
    · exact injectsOf_iwd tape _ _ _ _
    · exact iwd_sleepsWithin tape _ _ (by norm_num) hv _ _
    · exact injectsOf_iwd tape _ _ _ _
    · exact iwd_sleepsWithin tape _ _ hab hv _ _
    · exact injectsOf_iwd tape _ _ _ _
    · exact (uniformDraw_bounds _ _ _ (by norm_num) (hv _).1 (hv _).2).1
    · exact (uniformDraw_bounds _ _ _ (by norm_num) (hv _).1 (hv _).2).2
  · norm_num [simulate_typo, mkTypoChars, injectWithDelays, uniformDraw,
      randint1, choiceOffset, (show ('a'.isAlpha) = true by decide)]

/-- Witness for C9's sleep-structure clause at a concrete detour. -/
theorem typo_detour_sleeps_witness :
    ∃ E1 E2 E3 pz,
      (simulate_typo ⟨0, 1, 1, TypingMode.INSTANT⟩ (fun _ => 0) ['a'] 0).events
          = E1 ++ Event.sleep pz :: (E2 ++ E3)
      ∧ sleepsWithin (⟨0, 1, 1, TypingMode.INSTANT⟩ : TyperConfig).delayMin
          (⟨0, 1, 1, TypingMode.INSTANT⟩ : TyperConfig).delayMax E1
      ∧ injectsOf E1 = typoSubstituted ⟨0, 1, 1, TypingMode.INSTANT⟩ (fun _ => 0) ['a'] 0
      ∧ sleepsWithin (1/20) (3/20) E2
      ∧ injectsOf E2 = List.replicate
          (typoSubstituted ⟨0, 1, 1, TypingMode.INSTANT⟩ (fun _ => 0) ['a'] 0).length
          (Char.ofNat 8)
      ∧ sleepsWithin (⟨0, 1, 1, TypingMode.INSTANT⟩ : TyperConfig).delayMin
          (⟨0, 1, 1, TypingMode.INSTANT⟩ : TyperConfig).delayMax E3
      ∧ injectsOf E3 = typoWindow ⟨0, 1, 1, TypingMode.INSTANT⟩ (fun _ => 0) ['a'] 0
      ∧ 1/10 ≤ pz ∧ pz ≤ 3/10 :=
  (typo_detour_sleeps ⟨0, 1, 1, TypingMode.INSTANT⟩ TypingMode.INSTANT (fun _ => 0)
      ['a'] 0).2.2.1
    (fun _ => ⟨le_refl 0, show (0 : ℚ) < 1 by decide⟩) (show (0 : ℚ) ≤ 1 by decide)

theorem simulate_typo_events_decomp (cfg : TyperConfig) (tape : ℕ → ℚ)
    (rem : List Char) (p : ℕ) :
    (simulate_typo cfg tape rem p).events
      = (injectWithDelays tape cfg.delayMin cfg.delayMax
          (typoSubstituted cfg tape rem p)
          (mkTypoChars tape (typoWindow cfg tape rem p) (p + 1)).2).1
        ++ Event.sleep (uniformDraw (1/10) (3/10)
            (tape (injectWithDelays tape cfg.delayMin cfg.delayMax
              (typoSubstituted cfg tape rem p)
              (mkTypoChars tape (typoWindow cfg tape rem p) (p + 1)).2).2))
          :: ((injectWithDelays tape (1/20) (3/20)
              (List.replicate (typoSubstituted cfg tape rem p).length (Char.ofNat 8))
              ((injectWithDelays tape cfg.delayMin cfg.delayMax
                (typoSubstituted cfg tape rem p)
                (mkTypoChars tape (typoWindow cfg tape rem p) (p + 1)).2).2 + 1)).1
            ++ (injectWithDelays tape cfg.delayMin cfg.delayMax
                (typoWindow cfg tape rem p)
                (injectWithDelays tape (1/20) (3/20)
                  (List.replicate (typoSubstituted cfg tape rem p).length (Char.ofNat 8))
                  ((injectWithDelays tape cfg.delayMin cfg.delayMax
                    (typoSubstituted cfg tape rem p)
                    (mkTypoChars tape (typoWindow cfg tape rem p) (p + 1)).2).2 + 1)).2).1) :=
  rfl

theorem simulate_typo_injectsOf (cfg : TyperConfig) (tape : ℕ → ℚ)
    (rem : List Char) (p : ℕ) :
    injectsOf (simulate_typo cfg tape rem p).events
      = typoSubstituted cfg tape rem p
        ++ List.replicate (typoSubstituted cfg tape rem p).length (Char.ofNat 8)
        ++ typoWindow cfg tape rem p := by
  rw [simulate_typo_events_decomp, detour_injects]

theorem simulate_typo_inject_count (cfg : TyperConfig) (tape : ℕ → ℚ)
    (rem : List Char) (p : ℕ) (hv : ValidTape tape) (hrem : 1 ≤ rem.length) :
    (injectsOf (simulate_typo cfg tape rem p).events).length ≤ 9 := by
  rw [simulate_typo_injectsOf]
  have hn : 1 ≤ min 3 rem.length := by omega
  obtain ⟨h1, h2⟩ := randint1_bounds (min 3 rem.length) (tape p) (hv p).1 (hv p).2 hn
  have hW : (typoWindow cfg tape rem p).length ≤ 3 := by
    unfold typoWindow
    rw [List.length_take]
    have : (simulate_typo cfg tape rem p).typo_length
        = randint1 (min 3 rem.length) (tape p) := rfl
    omega
  have hT : (typoSubstituted cfg tape rem p).length
      = (typoWindow cfg tape rem p).length := by
    unfold typoSubstituted
    rw [mkTypoChars_length]
  simp only [List.length_append, List.length_replicate]
  omega

theorem badInjects_append (stop : ℕ → Bool) :
    ∀ (xs ys : List Event) (n : ℕ),
      badInjects stop (xs ++ ys) n
        = badInjects stop xs n + badInjects stop ys (n + xs.length) := by
  intro xs
  induction xs with
  | nil => intro ys n; simp [badInjects]
  | cons e xs ih =>
    intro ys n
    cases e with
    | inject c =>
      simp only [List.cons_append, badInjects, List.length_cons, List.append_eq]
      rw [ih ys (n + 1), show n + 1 + xs.length = n + (xs.length + 1) from by omega,
        Nat.add_assoc]
    | sleep d =>
      simp only [List.cons_append, badInjects, List.length_cons, List.append_eq]
      rw [ih ys (n + 1), show n + 1 + xs.length = n + (xs.length + 1) from by omega]

theorem badInjects_le (stop : ℕ → Bool) :
    ∀ (xs : List Event) (n : ℕ), badInjects stop xs n ≤ (injectsOf xs).length := by
  intro xs
  induction xs with
  | nil => intro n; simp [badInjects, injectsOf]
  | cons e xs ih =>
    intro n
    cases e with
    | inject c =>
      simp only [badInjects, injectsOf, List.length_cons]
      have := ih (n + 1)
      by_cases h : stop n = true <;> simp [h] <;> omega
    | sleep d =>
      simp only [badInjects, injectsOf]
      exact ih (n + 1)

theorem badInjects_zero_of_mono (stop : ℕ → Bool) (hm : StopMono stop) :
    ∀ (xs : List Event) (n : ℕ), stop (n + xs.length) = false →
      badInjects stop xs n = 0 := by
  intro xs
  induction xs with
  | nil => intro n _; rfl
  | cons e xs ih =>
    intro n h
    simp only [List.length_cons] at h
    have h2 : stop (n + 1 + xs.length) = false := by
      rw [show n + 1 + xs.length = n + (xs.length + 1) from by omega]
      exact h
    cases e with
    | inject c =>
      have hn : ¬stop n = true := by
        intro ht
        have hmono := hm n (n + (xs.length + 1)) (by omega) ht
        rw [h] at hmono
        exact Bool.false_ne_true hmono
      simp only [badInjects]
      rw [if_neg hn, ih (n + 1) h2]
    | sleep d =>
      simp only [badInjects]
      exact ih (n + 1) h2

theorem loop_badInjects (cfg : TyperConfig) (tape : ℕ → ℚ) (stop : ℕ → Bool)
    (hv : ValidTape tape) (hm : StopMono stop) :
    ∀ (fuel : ℕ) (rem : List Char) (lc : Option Char) (p n : ℕ),
      rem.length ≤ fuel →
      badInjects stop (simulate_typing_loop cfg tape stop fuel rem lc p n).1 n ≤ 9 := by
  intro fuel
  induction fuel with
  | zero => intro rem lc p n _; simp [simulate_typing_loop, badInjects]
  | succ f ih =>
    intro rem lc p n hlen
    cases rem with
    | nil => simp [simulate_typing_loop, badInjects]
    | cons c rest =>
      by_cases hs : stop n = true
      · rw [loop_stopped cfg tape stop _ _ _ _ _ hs]
        simp [badInjects]
      · simp only [simulate_typing_loop]
        rw [if_neg hs]
        by_cases herr : tape p < cfg.errorRate ∧ c.isAlpha = true
        · rw [if_pos herr]
          have hL := simulate_typo_len_pos cfg tape (c :: rest) (p + 1)
          have hdlen : ((c :: rest).drop
              (simulate_typo cfg tape (c :: rest) (p + 1)).typo_length).length ≤ f := by
            simp
            simp at hlen
            omega
          rw [badInjects_append]
          by_cases hs2 : stop (n + (simulate_typo cfg tape (c :: rest) (p + 1)).events.length)
              = true
          · rw [loop_stopped cfg tape stop _ _ _ _ _ hs2]
            have hb1 := badInjects_le stop
              (simulate_typo cfg tape (c :: rest) (p + 1)).events n
            have hb2 := simulate_typo_inject_count cfg tape (c :: rest) (p + 1) hv (by simp)
            simp only [badInjects]
            omega
          · have hb1 := badInjects_zero_of_mono stop hm
              (simulate_typo cfg tape (c :: rest) (p + 1)).events n
              (by simpa using hs2)
            have hb2 := ih ((c :: rest).drop
                (simulate_typo cfg tape (c :: rest) (p + 1)).typo_length) lc
              (simulate_typo cfg tape (c :: rest) (p + 1)).pos
              (n + (simulate_typo cfg tape (c :: rest) (p + 1)).events.length) hdlen
            omega
        · rw [if_neg herr]
          have hrest : rest.length ≤ f := by simp at hlen; omega
          cases hmode : cfg.mode <;> dsimp only <;> simp only [badInjects] <;>
            rw [if_neg hs]
          · exact Nat.le_trans (Nat.le_of_eq (Nat.zero_add _))
              (ih rest (some c) (p + 1) (n + 1) hrest)
          · rw [Nat.zero_add]
            exact ih rest (some c) (p + 2) (n + 2) hrest
          · rw [Nat.zero_add]
            exact ih rest (some c) (p + 1) (n + 2) hrest

/-- Counterexample for C2 as stated: with the flag becoming set right
after the first (and only) loop check — the schedule is false at event
index 0 and true from index 1 on, and is monotone — the typo detour in
flight keeps injecting: two of its injections (the backspace and the
corrected character) happen at trace positions where the flag is already
set, so the claim that the flag is checked before every injection,
including those inside a detour, fails; with 1 remaining source character,
2 (not fewer than 1) further characters are injected after the flag is
set. -/
theorem cancellation_counterexample :
    StopMono (fun n => decide (1 ≤ n))
    ∧ badInjects (fun n => decide (1 ≤ n))
        (simulate_typing ⟨0, 0, 1, TypingMode.INSTANT⟩ (fun _ => 0)
          (fun n => decide (1 ≤ n)) ['a'] 0 0).1 0 = 2 := by
  constructor
  · intro m k hmk hmtrue
    simp only [decide_eq_true_eq] at hmtrue ⊢
    omega
  · norm_num [simulate_typing, simulate_typing_loop, simulate_typo, mkTypoChars,
      injectWithDelays, uniformDraw, randint1, choiceOffset, badInjects,
      (show ('a'.isAlpha) = true by decide)]

/-- C2 (amended): the cancellation flag is read once per loop iteration —
before each direct injection and before entering a typo detour, not before
the individual injections inside a detour.  A task that observes the flag
at a check emits nothing further, so for a monotone (set-once) flag the
injections happening at positions where the flag is already set are
confined to the iteration in flight: at most 9 (a maximal detour's
3 · typo_length with typo_length ≤ 3).  `stop_typing` sets the flag and
joins the thread: after it returns the flag is set, nothing is pending,
and the background context never emits another event — no injection
occurs after `stop_typing` returns. -/
theorem cancellation_checked_per_iteration (cfg : TyperConfig) (tape : ℕ → ℚ)
    (stop : ℕ → Bool) (hv : ValidTape tape) (hm : StopMono stop) :
    (∀ (text : List Char) (p n : ℕ), stop n = true →
        simulate_typing cfg tape stop text p n = ([], 0))
    ∧ (∀ (text : List Char) (p n : ℕ),
        badInjects stop (simulate_typing cfg tape stop text p n).1 n ≤ 9)
    ∧ (∀ s : EngineState,
        (stop_typing s).stopFlag = true
        ∧ (stop_typing s).pending = []
        ∧ ∀ j : ℕ, engineStep^[j] (stop_typing s) = stop_typing s) := by
  refine ⟨?_, ?_, ?_⟩
  · intro text p n h
    exact loop_stopped cfg tape stop text.length text none p n h
  · intro text p n
    exact loop_badInjects cfg tape stop hv hm text.length text none p n (le_refl _)
  · intro s
    refine ⟨rfl, rfl, ?_⟩
    intro j
    induction j with
    | zero => rfl
    | succ i ih =>
      rw [Function.iterate_succ_apply', ih]
      rfl

/-- Witness for C2's amended statement: a task started with the flag
already set emits nothing, a task with the flag never set has no
flag-violating injections, and after `stop_typing` on a concrete engine
state nothing is pending and the scheduler is inert. -/
theorem cancellation_checked_per_iteration_witness :
    simulate_typing ⟨0, 1, 0, TypingMode.HUMAN_LIKE⟩ (fun _ => 0) (fun _ => true)
        ['a'] 0 0 = ([], 0)
    ∧ badInjects (fun _ => false)
        (simulate_typing ⟨0, 1, 0, TypingMode.HUMAN_LIKE⟩ (fun _ => 0) (fun _ => false)
          ['a'] 0 0).1 0 ≤ 9
    ∧ ((stop_typing ⟨[Event.inject 'a'], [Event.inject 'b'], false⟩).stopFlag = true
        ∧ (stop_typing ⟨[Event.inject 'a'], [Event.inject 'b'], false⟩).pending = []
        ∧ ∀ j : ℕ, engineStep^[j] (stop_typing ⟨[Event.inject 'a'], [Event.inject 'b'], false⟩)
            = stop_typing ⟨[Event.inject 'a'], [Event.inject 'b'], false⟩) :=
  ⟨(cancellation_checked_per_iteration ⟨0, 1, 0, TypingMode.HUMAN_LIKE⟩ (fun _ => 0)
      (fun _ => true) (fun _ => ⟨le_refl 0, show (0 : ℚ) < 1 by decide⟩)
      (fun _ _ _ h => h)).1 ['a'] 0 0 rfl,
   (cancellation_checked_per_iteration ⟨0, 1, 0, TypingMode.HUMAN_LIKE⟩ (fun _ => 0)
      (fun _ => false) (fun _ => ⟨le_refl 0, show (0 : ℚ) < 1 by decide⟩)
      (fun _ _ _ h => h)).2.1 ['a'] 0 0,
   (cancellation_checked_per_iteration ⟨0, 1, 0, TypingMode.HUMAN_LIKE⟩ (fun _ => 0)
      (fun _ => false) (fun _ => ⟨le_refl 0, show (0 : ℚ) < 1 by decide⟩)
      (fun _ _ _ h => h)).2.2 ⟨[Event.inject 'a'], [Event.inject 'b'], false⟩⟩
